import Mathlib

/-!
# Verification of the DLH weighting scheme and the query-type interface

Shallow embedding of `src/xapian-core/weight/dlhweight.cc` (the
`Xapian::DLHWeight` class of the DFR framework) and of the `querytype`
interface of the omega query layer (`query.h`).

C++ `double` arithmetic is modelled over `ℝ`; `log2` is `Real.logb 2` and
`M_PI` is `Real.pi`.  Term counts and collection statistics are natural
numbers cast into `ℝ` at use sites, exactly as the C++ code converts
`Xapian::termcount`/`Xapian::doccount` values to `double`.
-/

open Real

noncomputable section

namespace Xapian

/-- The per-term statistics a `Xapian::Weight` reads through its
`get_*` accessors during `init`: collection size, collection frequency,
average document length, within-query frequency, the term's wdf upper
bound and the document-length upper bound. -/
structure TermStats where
  collection_size : ℕ
  collection_freq : ℕ
  average_length : ℝ
  wqf : ℕ
  wdf_upper_bound : ℕ
  doclength_upper_bound : ℕ

/-- State of a `DLHWeight` object: the three `double` members set by
`DLHWeight::init` and read by `get_sumpart`/`get_maxpart`. -/
structure DLHWeight where
  log_constant : ℝ
  wqf_product_factor : ℝ
  upper_bound : ℝ

/-- A freshly constructed `DLHWeight` (as produced by `DLHWeight()`,
`clone()` and `unserialise`): no member has been given a meaningful value
yet, which we model by zeroes. -/
def DLHWeight.new : DLHWeight := ⟨0, 0, 0⟩

/-- `DLHWeight::init(double factor)`.  Mirrors the source line by line:
when the wdf upper bound is `0` it sets `upper_bound = 0` and returns
early (leaving the other members of `pre` untouched); otherwise it
computes `log_constant`, `wqf_product_factor` and the clamped analytic
upper bound. -/
def DLHWeight.init (pre : DLHWeight) (s : TermStats) (factor : ℝ) : DLHWeight :=
  if s.wdf_upper_bound = 0 then
    { pre with upper_bound := 0 }
  else
    let wdf_upper : ℝ := s.wdf_upper_bound
    let wdf_lower : ℝ := 1
    let len_upper : ℝ := s.doclength_upper_bound
    let min_wdf_to_len : ℝ := wdf_lower / len_upper
    let N : ℝ := s.collection_size
    let F : ℝ := s.collection_freq
    let log_constant : ℝ := s.average_length * N / F
    let wqf_product_factor : ℝ := s.wqf * factor
    let wdf_var : ℝ := min wdf_upper (len_upper / 2)
    let max_product_1 : ℝ := wdf_var * (1 - wdf_var / len_upper)
    let max_product_2 : ℝ := wdf_upper * (1 - min_wdf_to_len)
    let max_product : ℝ := min max_product_1 max_product_2
    let ub : ℝ :=
      wdf_upper * logb 2 log_constant / (wdf_upper + 0.5) +
      (len_upper - wdf_lower) * logb 2 (1 - min_wdf_to_len) / (wdf_lower + 0.5) +
      0.5 * logb 2 (2 * π * max_product) / (wdf_lower + 0.5)
    { log_constant := log_constant
    , wqf_product_factor := wqf_product_factor
    , upper_bound := if ub < 0 then 0 else ub * wqf_product_factor }

/-- `DLHWeight::get_sumpart(wdf, len, _)`.  The third (`doc_unique_terms`)
argument is unused, exactly as in the source. -/
def DLHWeight.get_sumpart (w : DLHWeight) (wdf len : ℕ) (_uniqterms : ℕ) : ℝ :=
  if wdf = 0 then 0
  else
    let wdf_to_len : ℝ := (wdf : ℝ) / (len : ℝ)
    let one_minus_wdf_to_len : ℝ := 1 - wdf_to_len
    let wt : ℝ :=
      (wdf : ℝ) * logb 2 (wdf_to_len * w.log_constant) +
      ((len : ℝ) - (wdf : ℝ)) * logb 2 one_minus_wdf_to_len +
      0.5 * logb 2 (2 * π * (wdf : ℝ) * one_minus_wdf_to_len)
    if wt ≤ 0 then 0
    else w.wqf_product_factor * wt / ((wdf : ℝ) + 0.5)

/-- `DLHWeight::get_maxpart()`. -/
def DLHWeight.get_maxpart (w : DLHWeight) : ℝ := w.upper_bound

/-- `DLHWeight::get_sumextra(len, uniqterms)`. -/
def DLHWeight.get_sumextra (_w : DLHWeight) (_len _uniqterms : ℕ) : ℝ := 0

/-- `DLHWeight::get_maxextra()`. -/
def DLHWeight.get_maxextra (_w : DLHWeight) : ℝ := 0

/-- `DLHWeight::name()`. -/
def DLHWeight.sname (_w : DLHWeight) : String := "Xapian::DLHWeight"

/-- `DLHWeight::serialise()`: the scheme has no parameters, the blob is
empty. -/
def DLHWeight.serialise (_w : DLHWeight) : String := ""

/-- `DLHWeight::unserialise(s)`: succeeds (with a freshly constructed
scheme) exactly when the blob is empty, otherwise throws
`Xapian::SerialisationError`, which we model as `Except.error`. -/
def DLHWeight.unserialise (_w : DLHWeight) (s : String) : Except String DLHWeight :=
  if s.isEmpty then Except.ok DLHWeight.new
  else Except.error "Extra data in DLHWeight::unserialise()"

/-- The `querytype` enumeration of `query.h`:
`NEW_QUERY` (entirely new query), `SAME_QUERY` (unchanged),
`EXTENDED_QUERY` (new query based on the old one) and `BAD_QUERY`
(parse error, message in `query_parse_error`). -/
inductive querytype where
  | NEW_QUERY : querytype
  | SAME_QUERY : querytype
  | EXTENDED_QUERY : querytype
  | BAD_QUERY : querytype
deriving DecidableEq

/-- Modelled from the spec: the body of `set_probabilistic` is not part of
the supplied sources (only its declaration in `query.h` is), so the
classification heuristic is modelled from the header comment and the
spec's description: a parse failure yields `BAD_QUERY` through the same
return code; otherwise, removed terms make a `NEW_QUERY`, an unchanged
term set a `SAME_QUERY`, and a proper superset an `EXTENDED_QUERY`. -/
def set_probabilistic (parse_ok : Bool) (old_terms new_terms : Finset ℕ) : querytype :=
  if parse_ok = false then querytype.BAD_QUERY
  else if new_terms = old_terms then querytype.SAME_QUERY
  else if old_terms ⊆ new_terms then querytype.EXTENDED_QUERY
  else querytype.NEW_QUERY

/-! ## General lemmas about the embedded operations -/

theorem init_of_upper_ne_zero (pre : DLHWeight) (s : TermStats) (factor : ℝ)
    (h : s.wdf_upper_bound ≠ 0) :
    pre.init s factor = DLHWeight.new.init s factor := by
  simp only [DLHWeight.init, if_neg h]

theorem get_sumpart_nonneg_of_state (w : DLHWeight) (hk : 0 ≤ w.wqf_product_factor)
    (wdf len u : ℕ) : 0 ≤ w.get_sumpart wdf len u := by
  unfold DLHWeight.get_sumpart
  split
  · exact le_refl 0
  · dsimp only
    split
    · exact le_refl 0
    · rename_i hwt
      have hwt' : (0:ℝ) ≤ _ := le_of_lt (lt_of_not_le hwt)
      apply div_nonneg (mul_nonneg hk hwt')
      positivity

/-! ## Analytic groundwork for the DLH upper bound

The heart of the development: `get_sumpart` never exceeds the analytic
bound computed by `init` (for postings with `wdf < len`).  Everything
below is phrased with the natural logarithm; the claim-level statements
convert to `logb 2` at the end. -/

theorem one_sub_inv_le_log {x : ℝ} (hx : 0 < x) : 1 - 1/x ≤ log x := by
  have h := Real.log_le_sub_one_of_pos (show (0:ℝ) < x⁻¹ by positivity)
  rw [Real.log_inv] at h
  rw [one_div]
  linarith

theorem log_le_half_self {x : ℝ} (hx : 1 ≤ x) : log x ≤ x / 2 := by
  have h0 : (0:ℝ) ≤ x := by linarith
  have hsq : Real.sqrt x ^ 2 = x := Real.sq_sqrt h0
  have hsp : 0 < Real.sqrt x := Real.sqrt_pos.mpr (by linarith)
  have h1 : log (Real.sqrt x) ≤ Real.sqrt x - 1 := Real.log_le_sub_one_of_pos hsp
  have h2 : log (Real.sqrt x) = log x / 2 := Real.log_sqrt h0
  nlinarith [sq_nonneg (Real.sqrt x - 2)]

theorem log_three_ge : (1:ℝ)/3 + log 2 ≤ log 3 := by
  have h : (1:ℝ) - 1/(3/2) ≤ log (3/2) := one_sub_inv_le_log (by norm_num)
  have h2 : log ((3:ℝ)/2) = log 3 - log 2 := Real.log_div (by norm_num) (by norm_num)
  rw [h2] at h
  norm_num at h
  linarith

theorem log_pi_le : log π ≤ 2.15 := by
  have h := Real.log_le_sub_one_of_pos Real.pi_pos
  have h2 := Real.pi_lt_d2
  linarith

theorem log_pi_ge : (1:ℝ)/3 + log 2 ≤ log π := by
  have h3 : log 3 ≤ log π := Real.log_le_log (by norm_num) (le_of_lt Real.pi_gt_three)
  linarith [log_three_ge]

theorem log_pi_sub_log_two_ge : (1:ℝ)/3 ≤ log π - log 2 := by
  have h : (1:ℝ) - 1/(3/2) ≤ log (3/2) := one_sub_inv_le_log (by norm_num)
  have h2 : log ((3:ℝ)/2) ≤ log (π/2) := by
    apply Real.log_le_log (by norm_num)
    have := Real.pi_gt_three
    linarith
  have h3 : log (π/2) = log π - log 2 :=
    Real.log_div (ne_of_gt Real.pi_pos) (by norm_num)
  rw [h3] at h2
  norm_num at h
  linarith

theorem log_pi_le_sharp : log π ≤ log 2 + 0.575 := by
  have h1 : log π ≤ log 3.15 :=
    Real.log_le_log Real.pi_pos (le_of_lt Real.pi_lt_d2)
  have h2 : log (3.15:ℝ) = log 2 + log 1.575 := by
    rw [← Real.log_mul (by norm_num) (by norm_num)]
    norm_num
  have h3 : log (1.575:ℝ) ≤ 0.575 := by
    have := Real.log_le_sub_one_of_pos (show (0:ℝ) < 1.575 by norm_num)
    linarith
  linarith

/-- The quantity `wdf · log(wdf/len) + (len-wdf) · log((len-wdf)/len)
+ ½ log(2π·wdf·(len-wdf)/len)` : the part of the natural-log DLH weight
`wt·ln 2` that does not depend on the collection statistics, written with
`w = wdf` and `m = len - wdf`. -/
def dlhA (w m : ℝ) : ℝ :=
  w * log (w/(w+m)) + m * log (m/(w+m)) + (1/2) * log (2*π*w*(m/(w+m)))

/-- The `max_product` quantity computed by `DLHWeight::init`. -/
def dlhMP (U Lu : ℝ) : ℝ :=
  min (min U (Lu/2) * (1 - min U (Lu/2)/Lu)) (U * (1 - 1/Lu))

theorem dlhMP_ge_half {U Lu : ℝ} (hU : 1 ≤ U) (hLu : 2 ≤ Lu) :
    1/2 ≤ dlhMP U Lu := by
  have hLupos : (0:ℝ) < Lu := by linarith
  have hv1 : 1 ≤ min U (Lu/2) := le_min hU (by linarith)
  have hv2 : min U (Lu/2) / Lu ≤ 1/2 := by
    rw [div_le_iff hLupos]
    have : min U (Lu/2) ≤ Lu/2 := min_le_right _ _
    linarith
  unfold dlhMP
  refine le_min ?_ ?_
  · nlinarith [hv1, hv2]
  · have h1 : 1/Lu ≤ 1/2 := by
      rw [div_le_div_iff hLupos (by norm_num)]
      linarith
    nlinarith

theorem dlhMP_ge_prod {w m U Lu : ℝ} (hw : 1 ≤ w) (hm : 1 ≤ m)
    (hwU : w ≤ U) (hlLu : w + m ≤ Lu) : w * m / (w + m) ≤ dlhMP U Lu := by
  have hl : (0:ℝ) < w + m := by linarith
  have hLu : (0:ℝ) < Lu := by linarith
  have hq : w * m / (w + m) = w * (1 - w/(w+m)) := by
    field_simp
  have hstep1 : w * (1 - w/(w+m)) ≤ w * (1 - w/Lu) := by
    apply mul_le_mul_of_nonneg_left _ (by linarith)
    have : w / Lu ≤ w / (w+m) :=
      div_le_div_of_nonneg_left (by linarith) hl hlLu
    linarith
  unfold dlhMP
  refine le_min ?_ ?_
  · -- against max_product_1 = v(1 - v/Lu) with v = min U (Lu/2)
    rcases le_or_lt w (min U (Lu/2)) with hcase | hcase
    · -- the quadratic v(1 - v/Lu) is monotone below Lu/2
      have hv2 : min U (Lu/2) ≤ Lu/2 := min_le_right _ _
      have key : w * (1 - w/Lu) ≤ min U (Lu/2) * (1 - min U (Lu/2)/Lu) := by
        have expand : min U (Lu/2) * (1 - min U (Lu/2)/Lu) - w * (1 - w/Lu) =
            (min U (Lu/2) - w) * ((Lu - (min U (Lu/2) + w))/Lu) := by
          field_simp
          ring
        have hfac1 : (0:ℝ) ≤ min U (Lu/2) - w := by linarith
        have hfac2 : (0:ℝ) ≤ (Lu - (min U (Lu/2) + w))/Lu := by
          apply div_nonneg _ (le_of_lt hLu)
          have hwhalf : w ≤ Lu/2 := le_trans hcase hv2
          linarith
        nlinarith [mul_nonneg hfac1 hfac2]
      rw [hq]
      linarith
    · -- here min U (Lu/2) = Lu/2 and the quadratic is maximised there
      have hveq : min U (Lu/2) = Lu/2 := by
        rcases le_total U (Lu/2) with h | h
        · exfalso
          rw [min_eq_left h] at hcase
          exact absurd hwU (not_le.mpr hcase)
        · exact min_eq_right h
      have key : w * (1 - w/Lu) ≤ Lu/2 * (1 - (Lu/2)/Lu) := by
        have h24 : Lu/2 * (1 - (Lu/2)/Lu) = Lu/4 := by
          field_simp
          ring
        rw [h24]
        have expand : Lu/4 - w * (1 - w/Lu) = (Lu - 2*w)^2/(4*Lu) := by
          field_simp
          ring
        nlinarith [sq_nonneg (Lu - 2*w), expand,
          div_nonneg (sq_nonneg (Lu - 2*w)) (by linarith : (0:ℝ) ≤ 4*Lu)]
      rw [hq, hveq]
      linarith
  · -- against max_product_2 = U(1 - 1/Lu)
    have key : w * m * Lu ≤ U * (Lu - 1) * (w + m) := by
      have hm' : m ≤ Lu - 1 := by linarith
      have s1 : m * Lu ≤ (Lu - 1) * (w + m) := by
        nlinarith [mul_le_mul_of_nonneg_left hw (show (0:ℝ) ≤ Lu - 1 by linarith)]
      have s2 : w * (m * Lu) ≤ U * ((Lu - 1) * (w + m)) :=
        mul_le_mul hwU s1 (by positivity) (by linarith)
      nlinarith [s2]
    have expand : U * (1 - 1/Lu) * (w+m) - w * m =
        (U * (Lu - 1) * (w + m) - w * m * Lu)/Lu := by
      field_simp
      ring
    rw [div_le_iff hl]
    have h2 : (0:ℝ) ≤ (U * (Lu - 1) * (w + m) - w * m * Lu)/Lu :=
      div_nonneg (by linarith) (le_of_lt hLu)
    linarith

theorem dlhMP_ge_quarter {w m U Lu : ℝ} (hw : 1 ≤ w) (hm : 1 ≤ m)
    (hmw : m + 1 ≤ w) (hwU : w ≤ U) (hlLu : w + m ≤ Lu) :
    (w + m)/4 ≤ dlhMP U Lu := by
  have hLu2 : (2:ℝ) ≤ Lu := by linarith
  have hLu : (0:ℝ) < Lu := by linarith
  have hhalf : (1:ℝ) - 1/Lu ≥ 1/2 := by
    have : (1:ℝ)/Lu ≤ 1/2 := by
      rw [div_le_div_iff hLu (by norm_num)]
      linarith
    linarith
  unfold dlhMP
  refine le_min ?_ ?_
  · rcases le_total (Lu/2) U with hcase | hcase
    · rw [min_eq_right hcase]
      have h24 : Lu/2 * (1 - (Lu/2)/Lu) = Lu/4 := by
        field_simp
        ring
      rw [h24]
      linarith
    · rw [min_eq_left hcase]
      have hwhalf : w ≤ Lu/2 := le_trans hwU hcase
      have key : w * (1 - w/Lu) ≤ U * (1 - U/Lu) := by
        have expand : U * (1 - U/Lu) - w * (1 - w/Lu) =
            (U - w) * ((Lu - (U + w))/Lu) := by
          field_simp
          ring
        have hfac1 : (0:ℝ) ≤ U - w := by linarith
        have hfac2 : (0:ℝ) ≤ (Lu - (U + w))/Lu := by
          apply div_nonneg _ (le_of_lt hLu)
          linarith
        nlinarith [mul_nonneg hfac1 hfac2]
      have hlow : (w+m)/4 ≤ w * (1 - w/Lu) := by
        have hwL : w/Lu ≤ 1/2 := by
          rw [div_le_div_iff hLu (by norm_num)]
          linarith
        nlinarith
      linarith
  · have : (w+m)/4 ≤ w/2 := by linarith
    nlinarith [hhalf, hwU, hw]

theorem dlhA_neg_one {m : ℝ} (hm : 1 ≤ m) : dlhA 1 m < 0 := by
  unfold dlhA
  have hl : (0:ℝ) < 1 + m := by linarith
  have n1 : log (1/(1+m)) ≤ -log 2 := by
    rw [one_div, Real.log_inv]
    have : log 2 ≤ log (1+m) := Real.log_le_log (by norm_num) (by linarith)
    linarith
  have hml : (0:ℝ) < m/(1+m) := by positivity
  have n2 : m * log (m/(1+m)) ≤ -(1/2) := by
    have hlog : log (m/(1+m)) ≤ m/(1+m) - 1 := Real.log_le_sub_one_of_pos hml
    have he : m/(1+m) - 1 = -(1/(1+m)) := by field_simp
    have step : m * log (m/(1+m)) ≤ m * (-(1/(1+m))) := by
      apply mul_le_mul_of_nonneg_left _ (by linarith)
      linarith
    have he2 : m * (-(1/(1+m))) = -(m/(1+m)) := by ring
    have hmlhalf : 1/2 ≤ m/(1+m) := by
      rw [div_le_div_iff (by norm_num) hl]
      linarith
    linarith
  have n3 : log (2*π*1*(m/(1+m))) ≤ log 2 + log π := by
    have harg : (0:ℝ) < 2*π*1*(m/(1+m)) := by positivity
    have hml1 : m/(1+m) ≤ 1 := by
      rw [div_le_one hl]
      linarith
    have hle : 2*π*1*(m/(1+m)) ≤ 2*π := by nlinarith [Real.pi_pos]
    have hmono : log (2*π*1*(m/(1+m))) ≤ log (2*π) := Real.log_le_log harg hle
    have hsplit : log (2*π) = log 2 + log π :=
      Real.log_mul (by norm_num) (ne_of_gt Real.pi_pos)
    linarith
  linarith [n1, n2, n3, log_pi_le_sharp, Real.log_two_gt_d9]

theorem dlhA_neg_small {w m : ℝ} (h2w : 2 ≤ w) (hwm : w ≤ m) : dlhA w m < 0 := by
  unfold dlhA
  have hm : (1:ℝ) ≤ m := by linarith
  have hl : (0:ℝ) < w + m := by linarith
  have hz1 : 1 ≤ w*m/(w+m) := by
    rw [le_div_iff hl]
    nlinarith
  have hzpos : (0:ℝ) < w*m/(w+m) := by positivity
  have hlt : (0:ℝ) < log 2 := by linarith [Real.log_two_gt_d9]
  have s1 : w * log (w/(w+m)) ≤ 2 * (-log 2) := by
    have hpos : (0:ℝ) < w/(w+m) := by positivity
    have hhalf : w/(w+m) ≤ 1/2 := by
      rw [div_le_div_iff hl (by norm_num)]
      linarith
    have hmono := Real.log_le_log hpos hhalf
    have hh : log ((1:ℝ)/2) = -log 2 := by rw [one_div, Real.log_inv]
    have ha : log (w/(w+m)) ≤ -log 2 := by linarith
    have step : w * log (w/(w+m)) ≤ w * (-log 2) :=
      mul_le_mul_of_nonneg_left ha (by linarith)
    have h2 : 2 * log 2 ≤ w * log 2 := mul_le_mul_of_nonneg_right h2w (le_of_lt hlt)
    nlinarith [step, h2]
  have s2 : m * log (m/(w+m)) ≤ -(w*m/(w+m)) := by
    have hpos : (0:ℝ) < m/(w+m) := by positivity
    have hlog : log (m/(w+m)) ≤ m/(w+m) - 1 := Real.log_le_sub_one_of_pos hpos
    have he : m/(w+m) - 1 = -(w/(w+m)) := by field_simp
    have step : m * log (m/(w+m)) ≤ m * (-(w/(w+m))) := by
      apply mul_le_mul_of_nonneg_left _ (by linarith)
      linarith
    have he2 : m * (-(w/(w+m))) = -(w*m/(w+m)) := by ring
    linarith
  have s3 : log (2*π*w*(m/(w+m))) ≤ log 2 + log π + (w*m/(w+m) - 1) := by
    have harg : 2*π*w*(m/(w+m)) = 2*π*(w*m/(w+m)) := by ring
    have hexp : log (2*π*(w*m/(w+m))) = log 2 + log π + log (w*m/(w+m)) := by
      rw [show 2*π*(w*m/(w+m)) = 2*(π*(w*m/(w+m))) by ring,
          Real.log_mul (by norm_num) (by positivity),
          Real.log_mul (ne_of_gt Real.pi_pos) (ne_of_gt hzpos)]
      ring
    have hlz : log (w*m/(w+m)) ≤ w*m/(w+m) - 1 := Real.log_le_sub_one_of_pos hzpos
    rw [harg, hexp]
    linarith
  linarith [s1, s2, s3, hz1, log_pi_le_sharp, Real.log_two_gt_d9]

theorem dlhA_neg_big {w m : ℝ} (h2w : 2 ≤ w) (hm : 1 ≤ m) (hmw : m ≤ w) :
    dlhA w m < 0 := by
  unfold dlhA
  have hl : (0:ℝ) < w + m := by linarith
  have hzpos : (0:ℝ) < w*m/(w+m) := by positivity
  have t1 : w * log (w/(w+m)) ≤ -(w*m/(w+m)) := by
    have hpos : (0:ℝ) < w/(w+m) := by positivity
    have hlog : log (w/(w+m)) ≤ w/(w+m) - 1 := Real.log_le_sub_one_of_pos hpos
    have he : w/(w+m) - 1 = -(m/(w+m)) := by field_simp
    have step : w * log (w/(w+m)) ≤ w * (-(m/(w+m))) := by
      apply mul_le_mul_of_nonneg_left _ (by linarith)
      linarith
    have he2 : w * (-(m/(w+m))) = -(w*m/(w+m)) := by ring
    linarith
  have t2 : m * log (m/(w+m)) ≤ -log 2 := by
    have hpos : (0:ℝ) < m/(w+m) := by positivity
    have hhalf : m/(w+m) ≤ 1/2 := by
      rw [div_le_div_iff hl (by norm_num)]
      linarith
    have hmono := Real.log_le_log hpos hhalf
    have hh : log ((1:ℝ)/2) = -log 2 := by rw [one_div, Real.log_inv]
    have hneg : log (m/(w+m)) ≤ -log 2 := by linarith
    have hlogneg : log (m/(w+m)) ≤ 0 :=
      Real.log_nonpos (le_of_lt hpos) (by linarith)
    have h3 : (m - 1) * log (m/(w+m)) ≤ 0 :=
      mul_nonpos_of_nonneg_of_nonpos (by linarith) hlogneg
    nlinarith [h3, hneg]
  have t3 : log (2*π*w*(m/(w+m))) ≤ log π + (2*(w*m/(w+m)) - 1) := by
    have harg : 2*π*w*(m/(w+m)) = π*(2*(w*m/(w+m))) := by ring
    have h2z : (0:ℝ) < 2*(w*m/(w+m)) := by positivity
    have hexp : log (π*(2*(w*m/(w+m)))) = log π + log (2*(w*m/(w+m))) :=
      Real.log_mul (ne_of_gt Real.pi_pos) (ne_of_gt h2z)
    have hlz : log (2*(w*m/(w+m))) ≤ 2*(w*m/(w+m)) - 1 :=
      Real.log_le_sub_one_of_pos h2z
    rw [harg, hexp]
    linarith
  linarith [t1, t2, t3, log_pi_le_sharp, Real.log_two_gt_d9]

theorem dlhS_one {m : ℝ} (hm : 1 ≤ m) :
    dlhA 1 m + 1 ≤ log (2*π*(1*m/(1+m)))/2 := by
  unfold dlhA
  have hl : (0:ℝ) < 1 + m := by linarith
  have e0 : 2*π*1*(m/(1+m)) = 2*π*(1*m/(1+m)) := by ring
  rw [e0]
  have n1 : log (1/(1+m)) = -log (1+m) := by rw [one_div, Real.log_inv]
  have hml : (0:ℝ) < m/(1+m) := by positivity
  have n2 : m * log (m/(1+m)) ≤ -(m/(1+m)) := by
    have hlog : log (m/(1+m)) ≤ m/(1+m) - 1 := Real.log_le_sub_one_of_pos hml
    have he : m/(1+m) - 1 = -(1/(1+m)) := by field_simp
    have step : m * log (m/(1+m)) ≤ m * (-(1/(1+m))) := by
      apply mul_le_mul_of_nonneg_left _ (by linarith)
      linarith
    have he2 : m * (-(1/(1+m))) = -(m/(1+m)) := by ring
    linarith
  have n4 : 1 - m/(1+m) = 1/(1+m) := by field_simp
  have n5 : 1/(1+m) ≤ log (1+m) := by
    have h2 : log 2 ≤ log (1+m) := Real.log_le_log (by norm_num) (by linarith)
    have h3 : (1:ℝ)/(1+m) ≤ 1/2 := by
      rw [div_le_div_iff hl (by norm_num)]
      linarith
    linarith [Real.log_two_gt_d9]
  linarith [n1, n2, n4, n5]

theorem dlhS_small {w m : ℝ} (h2w : 2 ≤ w) (hwm : w ≤ m) :
    dlhA w m / w + 1 ≤ log (2*π*(w*m/(w+m)))/2 := by
  unfold dlhA
  have hm : (1:ℝ) ≤ m := by linarith
  have hw0 : (0:ℝ) < w := by linarith
  have hl : (0:ℝ) < w + m := by linarith
  have hz1 : 1 ≤ w*m/(w+m) := by
    rw [le_div_iff hl]
    nlinarith
  have e0 : 2*π*w*(m/(w+m)) = 2*π*(w*m/(w+m)) := by ring
  rw [e0]
  set X := log (2*π*(w*m/(w+m))) with hX
  have ha : log (w/(w+m)) ≤ -log 2 := by
    have hpos : (0:ℝ) < w/(w+m) := by positivity
    have hhalf : w/(w+m) ≤ 1/2 := by
      rw [div_le_div_iff hl (by norm_num)]
      linarith
    have hmono := Real.log_le_log hpos hhalf
    have hh : log ((1:ℝ)/2) = -log 2 := by rw [one_div, Real.log_inv]
    linarith
  have s1 : w * log (w/(w+m)) ≤ w * (-log 2) :=
    mul_le_mul_of_nonneg_left ha (le_of_lt hw0)
  have s2 : m * log (m/(w+m)) ≤ 0 := by
    apply mul_nonpos_of_nonneg_of_nonpos (by linarith)
    apply Real.log_nonpos (by positivity)
    rw [div_le_one hl]
    linarith
  have hdiv : (w * log (w/(w+m)) + m * log (m/(w+m)) + 1/2 * X)/w ≤
      -log 2 + X/(2*w) := by
    rw [div_le_iff hw0]
    have hexpand : (-log 2 + X/(2*w))*w = -log 2 * w + X/2 := by
      field_simp
      ring
    rw [hexpand]
    linarith [s1, s2]
  have hXlb : 2*log 2 + 1/3 ≤ X := by
    have h6 : (6:ℝ) ≤ 2*π*(w*m/(w+m)) := by nlinarith [Real.pi_gt_three, hz1]
    have hmono : log 6 ≤ X := Real.log_le_log (by norm_num) h6
    have h6e : log (6:ℝ) = log 2 + log 3 := by
      rw [show (6:ℝ) = 2*3 by norm_num, Real.log_mul (by norm_num) (by norm_num)]
    linarith [log_three_ge]
  have hXpos : (0:ℝ) ≤ X := by linarith [Real.log_two_gt_d9]
  have hfrac : (1:ℝ)/4 ≤ 1/2 - 1/(2*w) := by
    have : 1/(2*w) ≤ 1/4 := by
      rw [div_le_div_iff (by linarith) (by norm_num)]
      linarith
    linarith
  have hprod : (2*log 2 + 1/3)*(1/4) ≤ X*(1/2 - 1/(2*w)) :=
    mul_le_mul hXlb hfrac (by norm_num) hXpos
  have hexp : X/2 - X/(2*w) = X*(1/2 - 1/(2*w)) := by
    field_simp
    ring
  linarith [hdiv, hprod, hexp, Real.log_two_gt_d9]

set_option maxHeartbeats 1000000 in
theorem dlhS_big {w m : ℝ} (h3w : 3 ≤ w) (hm : 1 ≤ m) (hmw : m ≤ w) :
    dlhA w m / w + 1 ≤ log (2*π*((w+m)/4))/2 := by
  have hw0 : (0:ℝ) < w := by linarith
  have hl : (0:ℝ) < w + m := by linarith
  obtain ⟨c1, hc1def⟩ : ∃ c : ℝ, c = (log π - log 2)/2 := ⟨_, rfl⟩
  have hc1 : (1:ℝ)/6 ≤ c1 := by
    rw [hc1def]
    linarith [log_pi_sub_log_two_ge]
  have hc1u : c1 ≤ 0.2875 := by
    rw [hc1def]
    linarith [log_pi_le_sharp]
  -- Step 1: dlhA ≤ -(w·m/l) - m·log 2 + ½ log(2πm)
  have hA : dlhA w m ≤ -(w*m/(w+m)) + m*(-log 2) + (1/2)*log (2*π*m) := by
    unfold dlhA
    have b1 : w * log (w/(w+m)) ≤ -(w*m/(w+m)) := by
      have hx : (0:ℝ) < (w+m)/w := by positivity
      have h1 := one_sub_inv_le_log hx
      have he : 1 - 1/((w+m)/w) = m/(w+m) := by
        rw [one_div_div]
        field_simp
      have he2 : log (w/(w+m)) = -log ((w+m)/w) := by
        rw [← Real.log_inv, inv_div]
      have hstep : log (w/(w+m)) ≤ -(m/(w+m)) := by
        rw [he2]
        linarith [he ▸ h1]
      have hmul : w * log (w/(w+m)) ≤ w * (-(m/(w+m))) :=
        mul_le_mul_of_nonneg_left hstep (le_of_lt hw0)
      have he3 : w * (-(m/(w+m))) = -(w*m/(w+m)) := by ring
      linarith
    have b2 : m * log (m/(w+m)) ≤ m * (-log 2) := by
      apply mul_le_mul_of_nonneg_left _ (by linarith)
      have hpos : (0:ℝ) < m/(w+m) := by positivity
      have hhalf : m/(w+m) ≤ 1/2 := by
        rw [div_le_div_iff hl (by norm_num)]
        linarith
      have hmono := Real.log_le_log hpos hhalf
      have hh : log ((1:ℝ)/2) = -log 2 := by rw [one_div, Real.log_inv]
      linarith
    have b3 : log (2*π*w*(m/(w+m))) ≤ log (2*π*m) := by
      apply Real.log_le_log (by positivity)
      have hwl : w/(w+m) ≤ 1 := by
        rw [div_le_one hl]
        linarith
      have he : 2*π*w*(m/(w+m)) = 2*π*m*(w/(w+m)) := by ring
      rw [he]
      have := mul_le_mul_of_nonneg_left hwl (show (0:ℝ) ≤ 2*π*m by positivity)
      linarith [this]
    linarith [b1, b2, b3]
  -- Step 2: worst case m = 1 of the reduced bound
  have r1 : -(w*m/(w+m)) ≤ -(w/(w+1)) := by
    have : w/(w+1) ≤ w*m/(w+m) := by
      rw [div_le_div_iff (by linarith) hl]
      nlinarith [mul_le_mul_of_nonneg_left hm (mul_self_nonneg w)]
    linarith
  have r2 : (1/2)*log (2*π*m) + m*(-log 2) ≤ (1/2)*log (2*π) + (-log 2) := by
    have hlm : log m ≤ m - 1 := Real.log_le_sub_one_of_pos (by linarith)
    have h2l : m - 1 ≤ 2*log 2*(m-1) := by
      nlinarith [Real.log_two_gt_d9]
    have hsplit : log (2*π*m) = log (2*π) + log m :=
      Real.log_mul (by positivity) (by linarith)
    rw [hsplit]
    nlinarith [hlm, h2l]
  have hc1e : (1/2)*log (2*π) + (-log 2) = c1 := by
    rw [Real.log_mul (by norm_num) (ne_of_gt Real.pi_pos), hc1def]
    ring
  -- Step 3: compare against the right-hand side at l = w+1
  have hY : log (2*π*((w+1)/4)) ≤ log (2*π*((w+m)/4)) := by
    apply Real.log_le_log (by positivity)
    nlinarith [Real.pi_pos]
  have hY1 : log (2*π*((w+1)/4)) = 2*c1 + log (w+1) := by
    rw [show 2*π*((w+1)/4) = π*(w+1)/2 by ring,
        Real.log_div (by positivity) (by norm_num),
        Real.log_mul (ne_of_gt Real.pi_pos) (by linarith), hc1def]
    ring
  -- Step 4: the reduced inequality in w alone
  have key : (-(w/(w+1)) + c1)/w + 1 ≤ (2*c1 + log (w+1))/2 := by
    have e1 : (-(w/(w+1)) + c1)/w = c1/w - 1/(w+1) := by
      field_simp
      ring
    rw [e1]
    rcases lt_or_le w 4 with hw4 | hw4
    · have hlog : log 4 ≤ log (w+1) := Real.log_le_log (by norm_num) (by linarith)
      have hlog4 : log (4:ℝ) = 2*log 2 := by
        rw [show (4:ℝ) = 2^(2:ℕ) by norm_num, Real.log_pow]
        push_cast
        ring
      have h1 : c1/w ≤ c1/3 :=
        div_le_div_of_nonneg_left (by linarith) (by norm_num) h3w
      have h2 : (1:ℝ)/5 ≤ 1/(w+1) := by
        rw [div_le_div_iff (by norm_num) (by linarith)]
        linarith
      linarith [Real.log_two_gt_d9, h1, h2, hlog, hlog4]
    rcases lt_or_le w 5 with hw5 | hw5
    · have hlog : log 5 ≤ log (w+1) := Real.log_le_log (by norm_num) (by linarith)
      have hlog4 : log (4:ℝ) = 2*log 2 := by
        rw [show (4:ℝ) = 2^(2:ℕ) by norm_num, Real.log_pow]
        push_cast
        ring
      have hlog5 : 2*log 2 + 1/5 ≤ log (5:ℝ) := by
        have hsplit : log (5:ℝ) = log 4 + log (5/4) := by
          rw [← Real.log_mul (by norm_num) (by norm_num)]
          norm_num
        have h54 : 1 - 1/((5:ℝ)/4) ≤ log ((5:ℝ)/4) := one_sub_inv_le_log (by norm_num)
        norm_num at h54
        linarith [hlog4]
      have h1 : c1/w ≤ c1/4 :=
        div_le_div_of_nonneg_left (by linarith) (by norm_num) hw4
      have h2 : (1:ℝ)/6 ≤ 1/(w+1) := by
        rw [div_le_div_iff (by norm_num) (by linarith)]
        linarith
      linarith [Real.log_two_gt_d9, h1, h2, hlog, hlog5]
    · have hlog : log 6 ≤ log (w+1) := Real.log_le_log (by norm_num) (by linarith)
      have hlog6 : 2*log 2 + 1/3 ≤ log (6:ℝ) := by
        have h6e : log (6:ℝ) = log 2 + log 3 := by
          rw [show (6:ℝ) = 2*3 by norm_num, Real.log_mul (by norm_num) (by norm_num)]
        linarith [log_three_ge]
      have h0 : c1/w ≤ 1/(w+1) := by
        rw [div_le_div_iff hw0 (by linarith)]
        have hstep : c1*(w+1) ≤ 0.2875*(w+1) :=
          mul_le_mul_of_nonneg_right hc1u (by linarith)
        linarith [hstep]
      linarith [Real.log_two_gt_d9, h0, hc1, hlog, hlog6]
  -- Assemble
  have hchain : dlhA w m / w ≤ (-(w/(w+1)) + c1)/w := by
    apply (div_le_div_right hw0).mpr
    linarith [hA, r1, r2, hc1e]
  linarith [hchain, key, hY, hY1]

theorem dlhS_two_one : dlhA 2 1 / 2 + 1 ≤ log (2*π*((2+1)/4))/2 := by
  unfold dlhA
  have hlog4 : log (4:ℝ) = 2*log 2 := by
    rw [show (4:ℝ) = 2^(2:ℕ) by norm_num, Real.log_pow]
    push_cast
    ring
  have e1 : log ((2:ℝ)/(2+1)) = log 2 - log 3 := by
    rw [show ((2:ℝ)/(2+1)) = 2/3 by norm_num, Real.log_div (by norm_num) (by norm_num)]
  have e2 : log ((1:ℝ)/(2+1)) = -log 3 := by
    rw [show ((1:ℝ)/(2+1)) = (3:ℝ)⁻¹ by norm_num, Real.log_inv]
  have e3 : log (2*π*2*((1:ℝ)/(2+1))) = 2*log 2 + log π - log 3 := by
    rw [show 2*π*2*((1:ℝ)/(2+1)) = (4*π)/3 by ring,
        Real.log_div (by positivity) (by norm_num),
        Real.log_mul (by norm_num) (ne_of_gt Real.pi_pos), hlog4]
  have e4 : log (2*π*(((2:ℝ)+1)/4)) = log 3 + log π - log 2 := by
    rw [show 2*π*(((2:ℝ)+1)/4) = (3*π)/2 by ring,
        Real.log_div (by positivity) (by norm_num),
        Real.log_mul (by norm_num) (ne_of_gt Real.pi_pos)]
  rw [e1, e2, e3, e4]
  have h3 := log_three_ge
  have hpi := log_pi_ge
  linarith [Real.log_two_lt_d9, Real.log_two_gt_d9]

theorem dlhG_ge {Lu : ℝ} (hLu : 2 ≤ Lu) : (-1:ℝ) ≤ (Lu - 1) * log (1 - 1/Lu) := by
  have hLu0 : (0:ℝ) < Lu := by linarith
  have hLu1 : (0:ℝ) < Lu - 1 := by linarith
  have hpos : (0:ℝ) < 1 - 1/Lu := by
    have : 1/Lu ≤ 1/2 := by
      rw [div_le_div_iff hLu0 (by norm_num)]
      linarith
    linarith
  have h1 := one_sub_inv_le_log hpos
  have he : 1 - 1/(1 - 1/Lu) = -(1/(Lu - 1)) := by
    rw [show (1:ℝ) - 1/Lu = (Lu-1)/Lu by field_simp, one_div_div]
    field_simp
  have hstep : (Lu-1) * (-(1/(Lu-1))) ≤ (Lu-1) * log (1-1/Lu) := by
    apply mul_le_mul_of_nonneg_left _ (by linarith)
    linarith [he ▸ h1]
  have he2 : (Lu-1)*(-(1/(Lu-1))) = -1 := by field_simp
  linarith

/-- The combined core estimate, for integer `wdf = w ≥ 1`,
`len - wdf = m ≥ 1`, `w ≤ U` and `w + m ≤ Lu`: the statistics-free part
of the DLH weight satisfies `dlhA/w + 1 ≤ ½·log(2π·max_product)` and is
negative. -/
theorem dlh_core_main (w m U Lu : ℕ) (hw : 1 ≤ w) (hm : 1 ≤ m)
    (hwU : w ≤ U) (hlLu : w + m ≤ Lu) :
    dlhA (w:ℝ) (m:ℝ) / (w:ℝ) + 1 ≤ log (2*π*dlhMP (U:ℝ) (Lu:ℝ))/2 ∧
    dlhA (w:ℝ) (m:ℝ) < 0 := by
  have hwR : (1:ℝ) ≤ (w:ℝ) := by exact_mod_cast hw
  have hmR : (1:ℝ) ≤ (m:ℝ) := by exact_mod_cast hm
  have hwUR : (w:ℝ) ≤ (U:ℝ) := by exact_mod_cast hwU
  have hlLuR : (w:ℝ) + (m:ℝ) ≤ (Lu:ℝ) := by
    have : ((w + m : ℕ):ℝ) ≤ (Lu:ℝ) := by exact_mod_cast hlLu
    push_cast at this
    linarith
  have hmono : ∀ a : ℝ, 0 < a → a ≤ dlhMP (U:ℝ) (Lu:ℝ) →
      log (2*π*a)/2 ≤ log (2*π*dlhMP (U:ℝ) (Lu:ℝ))/2 := by
    intro a ha hab
    have h1 : 2*π*a ≤ 2*π*dlhMP (U:ℝ) (Lu:ℝ) := by
      have := mul_le_mul_of_nonneg_left hab (show (0:ℝ) ≤ 2*π by positivity)
      linarith
    have h2 : log (2*π*a) ≤ log (2*π*dlhMP (U:ℝ) (Lu:ℝ)) :=
      Real.log_le_log (by positivity) h1
    linarith
  rcases Nat.lt_or_ge w 2 with h2 | h2
  · have hw1 : w = 1 := le_antisymm (Nat.lt_succ_iff.mp h2) hw
    subst hw1
    have hUR : (1:ℝ) ≤ (U:ℝ) := by exact_mod_cast hwU
    have hlLuR' : (1:ℝ) + (m:ℝ) ≤ (Lu:ℝ) := by exact_mod_cast hlLu
    have hprod := dlhMP_ge_prod (le_refl (1:ℝ)) hmR hUR hlLuR'
    constructor
    · have hS := dlhS_one hmR
      have hpos : (0:ℝ) < 1*(m:ℝ)/(1+(m:ℝ)) := by positivity
      have hm2 := hmono _ hpos hprod
      push_cast
      rw [div_one]
      linarith
    · push_cast
      exact dlhA_neg_one hmR
  · have h2R : (2:ℝ) ≤ (w:ℝ) := by exact_mod_cast h2
    have hw0 : (0:ℝ) < (w:ℝ) := by linarith
    rcases le_or_lt w m with hwm | hmw
    · have hwmR : (w:ℝ) ≤ (m:ℝ) := by exact_mod_cast hwm
      have hprod := dlhMP_ge_prod hwR hmR hwUR hlLuR
      constructor
      · have hS := dlhS_small h2R hwmR
        have hpos : (0:ℝ) < (w:ℝ)*(m:ℝ)/((w:ℝ)+(m:ℝ)) := by positivity
        have := hmono _ hpos hprod
        linarith
      · exact dlhA_neg_small h2R hwmR
    · have hmwR : (m:ℝ) ≤ (w:ℝ) := by exact_mod_cast (le_of_lt hmw)
      have hm1wR : (m:ℝ) + 1 ≤ (w:ℝ) := by exact_mod_cast (Nat.succ_le_of_lt hmw)
      have hquarter := dlhMP_ge_quarter hwR hmR hm1wR hwUR hlLuR
      have hlpos : (0:ℝ) < ((w:ℝ)+(m:ℝ))/4 := by positivity
      rcases Nat.lt_or_ge w 3 with h3 | h3
      · have hw2 : w = 2 := le_antisymm (Nat.lt_succ_iff.mp h3) h2
        have hm1 : m = 1 := by omega
        subst hw2
        subst hm1
        push_cast at hquarter
        constructor
        · have hS := dlhS_two_one
          have hm2 := hmono (((2:ℝ)+1)/4) (by norm_num) hquarter
          push_cast
          linarith [hS, hm2]
        · push_cast
          exact dlhA_neg_big (by norm_num) (by norm_num) (by norm_num)
      · have h3R : (3:ℝ) ≤ (w:ℝ) := by exact_mod_cast h3
        constructor
        · have hS := dlhS_big h3R hmR hmwR
          have := hmono _ hlpos hquarter
          linarith
        · exact dlhA_neg_big h2R hmR hmwR

/-- The c-free part of the DLH bound-soundness inequality: the
statistics-independent score mass, scaled by the factor `U/(U+½)` that
multiplies `log₂` of the constant, never exceeds the two
statistics-free terms of the upper bound (natural-log form). -/
theorem dlh_star (w m U Lu : ℕ) (hw : 1 ≤ w) (hm : 1 ≤ m)
    (hwU : w ≤ U) (hlLu : w + m ≤ Lu) :
    ((U:ℝ)/((U:ℝ)+1/2)) * (dlhA (w:ℝ) (m:ℝ) / (w:ℝ)) ≤
      (2/3) * (((Lu:ℝ)-1) * log (1 - 1/(Lu:ℝ))) +
      log (2*π*dlhMP (U:ℝ) (Lu:ℝ))/3 := by
  obtain ⟨hS, hAneg⟩ := dlh_core_main w m U Lu hw hm hwU hlLu
  have hLu2 : (2:ℝ) ≤ (Lu:ℝ) := by
    have : 2 ≤ Lu := by omega
    exact_mod_cast this
  have hG := dlhG_ge hLu2
  have hw0 : (0:ℝ) < (w:ℝ) := by
    have : (1:ℝ) ≤ (w:ℝ) := by exact_mod_cast hw
    linarith
  have hU1 : (1:ℝ) ≤ (U:ℝ) := by
    have : 1 ≤ U := le_trans hw hwU
    exact_mod_cast this
  have hAdiv : dlhA (w:ℝ) (m:ℝ) / (w:ℝ) ≤ 0 :=
    le_of_lt (div_neg_of_neg_of_pos hAneg hw0)
  have hf1 : (2:ℝ)/3 ≤ (U:ℝ)/((U:ℝ)+1/2) := by
    rw [div_le_div_iff (by norm_num) (by positivity)]
    linarith
  have hstep1 : ((U:ℝ)/((U:ℝ)+1/2)) * (dlhA (w:ℝ) (m:ℝ)/(w:ℝ)) ≤
      (2/3) * (dlhA (w:ℝ) (m:ℝ)/(w:ℝ)) :=
    mul_le_mul_of_nonpos_right hf1 hAdiv
  linarith [hstep1, hS, hG]

theorem aux_identity (t A B w U : ℝ) (hw : 0 < w) (hU : 0 < U) :
    (U*t/(U+1/2) + B) - (w*t + A)/(w + 1/2) =
    (B - (U/(U+1/2))*(A/w)) +
      ((U-w)/2)*(w*t + A)/(w*(U+1/2)*(w+1/2)) := by
  field_simp
  ring

theorem aux_clamp_le (wt raw k d : ℝ) (hk : 0 ≤ k) (hd : 0 < d)
    (hkey : 0 < wt → wt / d ≤ raw) :
    (if wt ≤ 0 then 0 else k * wt / d) ≤ (if raw < 0 then 0 else raw * k) := by
  split
  · split
    · exact le_refl 0
    · rename_i hraw
      exact mul_nonneg (le_of_not_lt hraw) hk
  · rename_i hwt
    have hwt' : 0 < wt := lt_of_not_le hwt
    have hr := hkey hwt'
    have hrawpos : 0 ≤ raw := le_trans (by positivity) hr
    rw [if_neg (not_lt.mpr hrawpos)]
    calc k * wt / d = k * (wt/d) := by ring
    _ ≤ k * raw := mul_le_mul_of_nonneg_left hr hk
    _ = raw * k := mul_comm _ _

theorem aux_key_chain (t A B w U : ℝ) (hw : 0 < w) (hU : w ≤ U)
    (hwt : 0 < w*t + A) (hstar : (U/(U+1/2))*(A/w) ≤ B) :
    (w*t + A)/(w+1/2) ≤ U*t/(U+1/2) + B := by
  have hident := aux_identity t A B w U hw (lt_of_lt_of_le hw hU)
  have hslack : 0 ≤ ((U-w)/2)*(w*t + A)/(w*(U+1/2)*(w+1/2)) := by
    apply div_nonneg (mul_nonneg (by linarith) (le_of_lt hwt))
    have hU0 : (0:ℝ) < U := lt_of_lt_of_le hw hU
    have := mul_pos (mul_pos hw (show (0:ℝ) < U + 1/2 by linarith))
      (show (0:ℝ) < w + 1/2 by linarith)
    linarith
  linarith [hident, hslack, hstar]

/-- C1 (amended: the posting must satisfy `wdf < len`; at `wdf = len`
the claim fails, see the counterexample): for every admissible posting
`1 ≤ wdf ≤ wdf_upper_bound`, `wdf < len ≤ doclength_upper_bound`, on a
DLH scheme initialised with a non-negative factor from statistics with
positive collection size, positive collection frequency and positive
average length, the value returned by `get_sumpart` is at most the value
returned by `get_maxpart`: the precomputed upper bound is never exceeded
by any such posting's score. -/
theorem dlh_sumpart_le_maxpart (pre : DLHWeight) (s : TermStats) (factor : ℝ)
    (hN : 0 < s.collection_size) (hF : 0 < s.collection_freq)
    (havg : 0 < s.average_length) (hf : 0 ≤ factor)
    (wdf len u : ℕ) (hw1 : 1 ≤ wdf) (hwU : wdf ≤ s.wdf_upper_bound)
    (hwlen : wdf < len) (hlenLu : len ≤ s.doclength_upper_bound) :
    (pre.init s factor).get_sumpart wdf len u ≤
      (pre.init s factor).get_maxpart := by
  have hU : s.wdf_upper_bound ≠ 0 := by omega
  have hwne : wdf ≠ 0 := by omega
  obtain ⟨m, hlen, hm⟩ : ∃ m, len = wdf + m ∧ 1 ≤ m :=
    ⟨len - wdf, by omega, by omega⟩
  subst hlen
  simp only [DLHWeight.init, if_neg hU, DLHWeight.get_sumpart, if_neg hwne,
    DLHWeight.get_maxpart]
  simp only [show (0.5:ℝ) = 1/2 from by norm_num]
  apply aux_clamp_le
  · exact mul_nonneg (Nat.cast_nonneg _) hf
  · have : (0:ℝ) ≤ (wdf:ℝ) := Nat.cast_nonneg _
    linarith
  · intro hwt
    have hNR : (0:ℝ) < (s.collection_size:ℝ) := by exact_mod_cast hN
    have hFR : (0:ℝ) < (s.collection_freq:ℝ) := by exact_mod_cast hF
    have hc : (0:ℝ) <
        s.average_length * (s.collection_size:ℝ) / (s.collection_freq:ℝ) := by
      positivity
    have hwR : (1:ℝ) ≤ (wdf:ℝ) := by exact_mod_cast hw1
    have hw0 : (0:ℝ) < (wdf:ℝ) := by linarith
    have hmR : (1:ℝ) ≤ (m:ℝ) := by exact_mod_cast hm
    have hlencast : ((wdf + m : ℕ):ℝ) = (wdf:ℝ) + (m:ℝ) := by push_cast; ring
    have hl0 : (0:ℝ) < (wdf:ℝ) + (m:ℝ) := by linarith
    have hx : (0:ℝ) < (wdf:ℝ)/((wdf:ℝ)+(m:ℝ)) := by positivity
    have hUR : (wdf:ℝ) ≤ (s.wdf_upper_bound:ℝ) := by exact_mod_cast hwU
    have hL2 : (0:ℝ) < log 2 := by linarith [Real.log_two_gt_d9]
    rw [hlencast] at hwt ⊢
    have e1 : 1 - (wdf:ℝ)/((wdf:ℝ)+(m:ℝ)) = (m:ℝ)/((wdf:ℝ)+(m:ℝ)) := by
      field_simp
    rw [e1] at hwt ⊢
    have esplit : logb 2 ((wdf:ℝ)/((wdf:ℝ)+(m:ℝ)) *
        (s.average_length * (s.collection_size:ℝ) / (s.collection_freq:ℝ))) =
        logb 2 ((wdf:ℝ)/((wdf:ℝ)+(m:ℝ))) +
        logb 2 (s.average_length * (s.collection_size:ℝ) / (s.collection_freq:ℝ)) :=
      Real.logb_mul (ne_of_gt hx) (ne_of_gt hc)
    rw [esplit] at hwt ⊢
    have hfold : min
        (min (s.wdf_upper_bound:ℝ) ((s.doclength_upper_bound:ℝ)/2) *
          (1 - min (s.wdf_upper_bound:ℝ) ((s.doclength_upper_bound:ℝ)/2) /
            (s.doclength_upper_bound:ℝ)))
        ((s.wdf_upper_bound:ℝ) * (1 - 1/(s.doclength_upper_bound:ℝ))) =
        dlhMP (s.wdf_upper_bound:ℝ) (s.doclength_upper_bound:ℝ) := rfl
    rw [hfold]
    -- rearrange the weight into `w·t + A`
    have hgoalL : (wdf:ℝ) * (logb 2 ((wdf:ℝ)/((wdf:ℝ)+(m:ℝ))) +
          logb 2 (s.average_length * (s.collection_size:ℝ) / (s.collection_freq:ℝ))) +
        ((wdf:ℝ) + (m:ℝ) - (wdf:ℝ)) * logb 2 ((m:ℝ)/((wdf:ℝ)+(m:ℝ))) +
        1/2 * logb 2 (2*π*(wdf:ℝ)*((m:ℝ)/((wdf:ℝ)+(m:ℝ)))) =
        (wdf:ℝ) * logb 2 (s.average_length * (s.collection_size:ℝ) /
            (s.collection_freq:ℝ)) +
        ((wdf:ℝ) * logb 2 ((wdf:ℝ)/((wdf:ℝ)+(m:ℝ))) +
          (m:ℝ) * logb 2 ((m:ℝ)/((wdf:ℝ)+(m:ℝ))) +
          1/2 * logb 2 (2*π*(wdf:ℝ)*((m:ℝ)/((wdf:ℝ)+(m:ℝ))))) := by
      ring
    rw [hgoalL] at hwt ⊢
    -- rearrange the bound into `U·t/(U+½) + B`
    have hgoalR : (s.wdf_upper_bound:ℝ) *
          logb 2 (s.average_length * (s.collection_size:ℝ) / (s.collection_freq:ℝ)) /
          ((s.wdf_upper_bound:ℝ) + 1/2) +
        ((s.doclength_upper_bound:ℝ) - 1) *
          logb 2 (1 - 1/(s.doclength_upper_bound:ℝ)) / (1 + 1/2) +
        1/2 * logb 2 (2*π*dlhMP (s.wdf_upper_bound:ℝ) (s.doclength_upper_bound:ℝ)) /
          (1 + 1/2) =
        (s.wdf_upper_bound:ℝ) *
          logb 2 (s.average_length * (s.collection_size:ℝ) / (s.collection_freq:ℝ)) /
          ((s.wdf_upper_bound:ℝ) + 1/2) +
        (((s.doclength_upper_bound:ℝ) - 1) *
          logb 2 (1 - 1/(s.doclength_upper_bound:ℝ)) / (1 + 1/2) +
        1/2 * logb 2 (2*π*dlhMP (s.wdf_upper_bound:ℝ) (s.doclength_upper_bound:ℝ)) /
          (1 + 1/2)) := by
      ring
    rw [hgoalR]
    -- the star inequality, converted from natural logs to `logb 2`
    have hstar := dlh_star wdf m s.wdf_upper_bound s.doclength_upper_bound
      hw1 hm hwU hlenLu
    have hstar2 := (div_le_div_right hL2).mpr hstar
    have eL : ((s.wdf_upper_bound:ℝ)/((s.wdf_upper_bound:ℝ)+1/2)) *
          (dlhA (wdf:ℝ) (m:ℝ) / (wdf:ℝ)) / log 2 =
        ((s.wdf_upper_bound:ℝ)/((s.wdf_upper_bound:ℝ)+1/2)) *
          (((wdf:ℝ) * logb 2 ((wdf:ℝ)/((wdf:ℝ)+(m:ℝ))) +
            (m:ℝ) * logb 2 ((m:ℝ)/((wdf:ℝ)+(m:ℝ))) +
            1/2 * logb 2 (2*π*(wdf:ℝ)*((m:ℝ)/((wdf:ℝ)+(m:ℝ)))))/(wdf:ℝ)) := by
      unfold dlhA
      simp only [Real.logb]
      ring
    have eR : ((2/3) * (((s.doclength_upper_bound:ℝ)-1) *
          log (1 - 1/(s.doclength_upper_bound:ℝ))) +
          log (2*π*dlhMP (s.wdf_upper_bound:ℝ) (s.doclength_upper_bound:ℝ))/3) / log 2 =
        ((s.doclength_upper_bound:ℝ) - 1) *
          logb 2 (1 - 1/(s.doclength_upper_bound:ℝ)) / (1 + 1/2) +
        1/2 * logb 2 (2*π*dlhMP (s.wdf_upper_bound:ℝ) (s.doclength_upper_bound:ℝ)) /
          (1 + 1/2) := by
      simp only [Real.logb]
      ring
    rw [eL, eR] at hstar2
    exact aux_key_chain _ _ _ _ _ hw0 hUR hwt hstar2

/-- Witness for C1 (amended) at concrete statistics and posting. -/
theorem dlh_sumpart_le_maxpart_witness :
    (DLHWeight.new.init ⟨1000, 50, 20, 1, 10, 100⟩ 1).get_sumpart 4 15 7 ≤
      (DLHWeight.new.init ⟨1000, 50, 20, 1, 10, 100⟩ 1).get_maxpart :=
  dlh_sumpart_le_maxpart DLHWeight.new ⟨1000, 50, 20, 1, 10, 100⟩ 1
    (by norm_num) (by norm_num) (by norm_num) zero_le_one 4 15 7
    (by norm_num) (by norm_num) (by norm_num) (by norm_num)

/-- C1 counterexample: at the admissible posting `wdf = len` (a document
consisting solely of the term), with statistics
`N = 1, F = 1, avglen = 4, wqf = 1, wdf upper bound = 2,
doclength upper bound = 2` and factor `1`, `get_sumpart` exceeds
`get_maxpart`: the boundary `wdf = len` makes the second and third terms
of the weight vanish (`log` of zero), while the precomputed bound still
subtracts the strictly negative `(len_upper - 1)·log2(1 - 1/len_upper)`
term.  (In C++ floating point the same call computes `0 · log2(0)` and
returns NaN, equally violating the claimed `≤`.) -/
theorem dlh_sumpart_exceeds_maxpart_at_boundary :
    (DLHWeight.new.init ⟨1, 1, 4, 1, 2, 2⟩ 1).get_maxpart <
      (DLHWeight.new.init ⟨1, 1, 4, 1, 2, 2⟩ 1).get_sumpart 2 2 0 := by
  have hb : (1:ℝ) < 2 := one_lt_two
  have l4 : logb 2 (4:ℝ) = 2 := by
    rw [show (4:ℝ) = 2^(2:ℕ) by norm_num, Real.logb_pow, Real.logb_self_eq_one hb]
    norm_num
  have lhalf : logb 2 ((1:ℝ)/2) = -1 := by
    rw [show (1:ℝ)/2 = (2:ℝ)⁻¹ by norm_num, Real.logb_inv, Real.logb_self_eq_one hb]
  have lpi_lt : logb 2 π < 2 := by
    have h := Real.logb_lt_logb hb Real.pi_pos Real.pi_lt_four
    rw [l4] at h
    exact h
  have lpi_pos : 0 < logb 2 π :=
    Real.logb_pos hb (by linarith [Real.pi_gt_three])
  simp only [DLHWeight.init, DLHWeight.get_sumpart, DLHWeight.get_maxpart]
  norm_num
  rw [show 2*π*((1:ℝ)/2) = π by ring, l4, lhalf]
  rw [if_neg (by linarith), if_neg (by linarith)]
  linarith

/-! ## Claims -/

/-- C3: for every scheme state, every `len` and every `doc_unique_terms`,
`get_sumpart 0 len u = 0`: a term absent from a document contributes
nothing. -/
theorem dlh_sumpart_at_wdf_zero (w : DLHWeight) (len u : ℕ) :
    w.get_sumpart 0 len u = 0 := by
  simp [DLHWeight.get_sumpart]

/-- C2: for every statistics record, every non-negative factor and every
input `(wdf, len, doc_unique_terms)`, the score contribution returned by
`get_sumpart` of an initialised `DLHWeight` is non-negative: a formula
value `wt ≤ 0` is clamped to `0` before the positive multiplier
`wqf_product_factor / (wdf + 0.5)` is applied. -/
theorem dlh_sumpart_nonneg (s : TermStats) (factor : ℝ) (hf : 0 ≤ factor)
    (wdf len u : ℕ) : 0 ≤ (DLHWeight.new.init s factor).get_sumpart wdf len u := by
  apply get_sumpart_nonneg_of_state
  unfold DLHWeight.init
  split
  · exact le_refl 0
  · exact mul_nonneg (Nat.cast_nonneg _) hf

/-- Witness for C2 at concrete inputs. -/
theorem dlh_sumpart_nonneg_witness :
    (0:ℝ) ≤ (DLHWeight.new.init ⟨1000, 50, 20, 1, 10, 100⟩ 1).get_sumpart 4 15 7 :=
  dlh_sumpart_nonneg ⟨1000, 50, 20, 1, 10, 100⟩ 1 zero_le_one 4 15 7

/-- C5: `unserialise` succeeds exactly on the empty blob (returning a
freshly constructed scheme), fails with a serialisation error on every
non-empty blob, and `serialise` always produces the empty blob. -/
theorem dlh_serialise_empty_blob (w : DLHWeight) :
    w.unserialise "" = Except.ok DLHWeight.new ∧
    (∀ str : String, str ≠ "" →
      w.unserialise str = Except.error "Extra data in DLHWeight::unserialise()") ∧
    w.serialise = "" := by
  refine ⟨rfl, ?_, rfl⟩
  intro str hs
  unfold DLHWeight.unserialise
  rw [if_neg]
  simpa [String.isEmpty_iff] using hs

/-- Witness for C5 on the non-empty blob "x". -/
theorem dlh_serialise_empty_blob_witness :
    DLHWeight.new.unserialise "x" =
      Except.error "Extra data in DLHWeight::unserialise()" :=
  (dlh_serialise_empty_blob DLHWeight.new).2.1 "x" (by decide)

/-- C6: for every DLH scheme, `unserialise (serialise())` succeeds, and
the resulting scheme, initialised with the same term statistics and
factor, has a `get_sumpart` numerically identical to the original's on
every input.  (`init` recomputes every member from the statistics when
the wdf upper bound is non-zero; when it is zero both the original and
the round-tripped scheme were freshly constructed, so the hypothesis
covers the general case of an arbitrary original state.) -/
theorem dlh_roundtrip_sumpart (w : DLHWeight) :
    ∃ w', w.unserialise w.serialise = Except.ok w' ∧
      ∀ (s : TermStats) (factor : ℝ), s.wdf_upper_bound ≠ 0 →
        ∀ wdf len u : ℕ,
          (w'.init s factor).get_sumpart wdf len u =
          (w.init s factor).get_sumpart wdf len u := by
  refine ⟨DLHWeight.new, rfl, ?_⟩
  intro s factor h wdf len u
  rw [init_of_upper_ne_zero w s factor h]

/-- Witness for C6 at concrete statistics. -/
theorem dlh_roundtrip_sumpart_witness :
    ∃ w', DLHWeight.new.unserialise DLHWeight.new.serialise = Except.ok w' ∧
      (w'.init ⟨1000, 50, 20, 1, 10, 100⟩ 1).get_sumpart 4 15 7 =
      (DLHWeight.new.init ⟨1000, 50, 20, 1, 10, 100⟩ 1).get_sumpart 4 15 7 := by
  obtain ⟨w', h1, h2⟩ := dlh_roundtrip_sumpart DLHWeight.new
  exact ⟨w', h1, h2 ⟨1000, 50, 20, 1, 10, 100⟩ 1 (by decide) 4 15 7⟩

/-- C7: with degenerate term statistics (wdf upper bound `0`, the term
never occurs), `init` does not fail: it degrades the scheme to a
zero-contribution state in which `get_maxpart` is `0` and every
`get_sumpart` call for an admissible posting (`wdf` bounded by the wdf
upper bound, hence `wdf = 0`) contributes nothing. -/
theorem dlh_degenerate_zero_contribution (w : DLHWeight) (s : TermStats) (factor : ℝ)
    (h : s.wdf_upper_bound = 0) :
    (w.init s factor).get_maxpart = 0 ∧
    ∀ wdf len u : ℕ, wdf ≤ s.wdf_upper_bound →
      (w.init s factor).get_sumpart wdf len u = 0 := by
  constructor
  · simp [DLHWeight.init, if_pos h, DLHWeight.get_maxpart]
  · intro wdf len u hw
    have : wdf = 0 := Nat.le_zero.mp (h ▸ hw)
    subst this
    exact dlh_sumpart_at_wdf_zero _ len u

/-- Witness for C7 at concrete degenerate statistics. -/
theorem dlh_degenerate_zero_contribution_witness :
    (DLHWeight.new.init ⟨1000, 0, 20, 1, 0, 100⟩ 1).get_maxpart = 0 ∧
    (DLHWeight.new.init ⟨1000, 0, 20, 1, 0, 100⟩ 1).get_sumpart 0 15 7 = 0 := by
  obtain ⟨h1, h2⟩ :=
    dlh_degenerate_zero_contribution DLHWeight.new ⟨1000, 0, 20, 1, 0, 100⟩ 1 rfl
  exact ⟨h1, h2 0 15 7 (Nat.le_refl 0)⟩

/-- C10: after `init` with a non-negative factor, `get_maxpart` is
non-negative (a negative analytic bound is clamped to `0` before the
`wqf * factor` multiplier is applied), and `get_maxextra` and
`get_sumextra` always return `0`. -/
theorem dlh_init_invariants (s : TermStats) (factor : ℝ) (hf : 0 ≤ factor) :
    0 ≤ (DLHWeight.new.init s factor).get_maxpart ∧
    (DLHWeight.new.init s factor).get_maxextra = 0 ∧
    ∀ len u : ℕ, (DLHWeight.new.init s factor).get_sumextra len u = 0 := by
  refine ⟨?_, rfl, fun _ _ => rfl⟩
  unfold DLHWeight.init DLHWeight.get_maxpart
  split
  · exact le_refl 0
  · simp only
    split
    · exact le_refl 0
    · rename_i hub
      exact mul_nonneg (le_of_not_lt hub) (mul_nonneg (Nat.cast_nonneg _) hf)

/-- Witness for C10 at concrete statistics. -/
theorem dlh_init_invariants_witness :
    0 ≤ (DLHWeight.new.init ⟨1000, 50, 20, 1, 10, 100⟩ 1).get_maxpart ∧
    (DLHWeight.new.init ⟨1000, 50, 20, 1, 10, 100⟩ 1).get_maxextra = 0 ∧
    (DLHWeight.new.init ⟨1000, 50, 20, 1, 10, 100⟩ 1).get_sumextra 15 7 = 0 := by
  obtain ⟨h1, h2, h3⟩ := dlh_init_invariants ⟨1000, 50, 20, 1, 10, 100⟩ 1 zero_le_one
  exact ⟨h1, h2, h3 15 7⟩

/-- C9: totality away from the boundary: for `0 < wdf < len` on a scheme
initialised from statistics with positive collection size, positive
collection frequency, positive average length, a non-zero wdf upper
bound and a non-negative factor, no division by zero occurs (the
divisors `len` and `wdf + 0.5` are non-zero) and every logarithm in
`get_sumpart` is taken of a strictly positive argument, and the returned
value is non-negative (hence a finite real number in this model). -/
theorem dlh_sumpart_totality (pre : DLHWeight) (s : TermStats) (factor : ℝ)
    (hN : 0 < s.collection_size) (hF : 0 < s.collection_freq)
    (havg : 0 < s.average_length) (hf : 0 ≤ factor)
    (hU : s.wdf_upper_bound ≠ 0) (wdf len u : ℕ)
    (h0 : 0 < wdf) (hlt : wdf < len) :
    (len:ℝ) ≠ 0 ∧ ((wdf:ℝ) + 0.5) ≠ 0 ∧
    0 < (wdf:ℝ)/(len:ℝ) * (pre.init s factor).log_constant ∧
    0 < 1 - (wdf:ℝ)/(len:ℝ) ∧
    0 < 2*π*(wdf:ℝ)*(1 - (wdf:ℝ)/(len:ℝ)) ∧
    0 ≤ (pre.init s factor).get_sumpart wdf len u := by
  have hlen0 : (0:ℝ) < (len:ℝ) := by
    have : 0 < len := lt_trans h0 hlt
    exact_mod_cast this
  have hw0 : (0:ℝ) < (wdf:ℝ) := by exact_mod_cast h0
  have hx1 : (wdf:ℝ)/(len:ℝ) < 1 := by
    rw [div_lt_one hlen0]
    exact_mod_cast hlt
  have hNR : (0:ℝ) < (s.collection_size:ℝ) := by exact_mod_cast hN
  have hFR : (0:ℝ) < (s.collection_freq:ℝ) := by exact_mod_cast hF
  have hlogc : (pre.init s factor).log_constant =
      s.average_length * (s.collection_size:ℝ) / (s.collection_freq:ℝ) := by
    simp [DLHWeight.init, if_neg hU]
  have hkf : (pre.init s factor).wqf_product_factor = (s.wqf:ℝ) * factor := by
    simp [DLHWeight.init, if_neg hU]
  refine ⟨ne_of_gt hlen0, by positivity, ?_, by linarith, ?_, ?_⟩
  · rw [hlogc]
    positivity
  · have : (0:ℝ) < 1 - (wdf:ℝ)/(len:ℝ) := by linarith
    positivity
  · exact get_sumpart_nonneg_of_state _
      (hkf ▸ mul_nonneg (Nat.cast_nonneg _) hf) wdf len u

/-- Witness for C9 at concrete statistics and posting. -/
theorem dlh_sumpart_totality_witness :
    ((15:ℕ):ℝ) ≠ 0 ∧ (((4:ℕ):ℝ) + 0.5) ≠ 0 ∧
    0 < ((4:ℕ):ℝ)/((15:ℕ):ℝ) *
      (DLHWeight.new.init ⟨1000, 50, 20, 1, 10, 100⟩ 1).log_constant ∧
    0 < 1 - ((4:ℕ):ℝ)/((15:ℕ):ℝ) ∧
    0 < 2*π*((4:ℕ):ℝ)*(1 - ((4:ℕ):ℝ)/((15:ℕ):ℝ)) ∧
    0 ≤ (DLHWeight.new.init ⟨1000, 50, 20, 1, 10, 100⟩ 1).get_sumpart 4 15 7 :=
  dlh_sumpart_totality DLHWeight.new ⟨1000, 50, 20, 1, 10, 100⟩ 1
    (by norm_num) (by norm_num) (by norm_num) zero_le_one (by decide)
    4 15 7 (by norm_num) (by norm_num)

/-- C8 counterexample: the classification operation does NOT draw its
result from `{New, Same, Extended}` with parse failure in a separate
parse-result type: the `querytype` return code itself contains
`BAD_QUERY`, and a parse failure is reported as that value. -/
theorem querytype_conflates_parse_error :
    set_probabilistic false ∅ ∅ = querytype.BAD_QUERY ∧
    querytype.BAD_QUERY ≠ querytype.NEW_QUERY ∧
    querytype.BAD_QUERY ≠ querytype.SAME_QUERY ∧
    querytype.BAD_QUERY ≠ querytype.EXTENDED_QUERY := by
  refine ⟨rfl, ?_, ?_, ?_⟩ <;> decide

/-- C8 (amended): the classification operation returns a value of the
four-valued `querytype` enumeration `{NEW, SAME, EXTENDED, BAD}`, and a
parse failure is reported in-band as `BAD_QUERY` through that same
return code (the message living in a separate variable), not through a
separate parse-result type. -/
theorem querytype_classification (b : Bool) (o n : Finset ℕ) :
    (set_probabilistic b o n = querytype.NEW_QUERY ∨
     set_probabilistic b o n = querytype.SAME_QUERY ∨
     set_probabilistic b o n = querytype.EXTENDED_QUERY ∨
     set_probabilistic b o n = querytype.BAD_QUERY) ∧
    (set_probabilistic b o n = querytype.BAD_QUERY ↔ b = false) := by
  unfold set_probabilistic
  constructor
  · split
    · exact Or.inr (Or.inr (Or.inr rfl))
    · split
      · exact Or.inr (Or.inl rfl)
      · split
        · exact Or.inr (Or.inr (Or.inl rfl))
        · exact Or.inl rfl
  · constructor
    · intro h
      by_contra hb
      revert h
      split
      · intro _; exact hb (by assumption)
      · split
        · intro h; exact querytype.noConfusion h
        · split
          · intro h; exact querytype.noConfusion h
          · intro h; exact querytype.noConfusion h
    · intro h
      rw [if_pos h]

/-- The closed-form DLH term weight exactly as the spec writes it:
`wt = wdf·log2(wdf/len · N/F·avglen) + (len-wdf)·log2(1-wdf/len)
      + 0.5·log2(2π·wdf·(1-wdf/len))`. -/
def specDLHwt (N F : ℕ) (avglen : ℝ) (wdf len : ℕ) : ℝ :=
  (wdf : ℝ) * logb 2 ((wdf : ℝ) / (len : ℝ) * ((N : ℝ) / (F : ℝ)) * avglen) +
  ((len : ℝ) - (wdf : ℝ)) * logb 2 (1 - (wdf : ℝ) / (len : ℝ)) +
  0.5 * logb 2 (2 * π * (wdf : ℝ) * (1 - (wdf : ℝ) / (len : ℝ)))

/-- C4: on a scheme initialised from statistics with a non-zero wdf upper
bound, a posting with `wdf ≥ 1` whose closed-form weight `wt` is positive
scores exactly `(wqf·factor) · wt / (wdf + 0.5)`. -/
theorem dlh_sumpart_closed_form (pre : DLHWeight) (s : TermStats) (factor : ℝ)
    (hU : s.wdf_upper_bound ≠ 0) (wdf len u : ℕ) (hw : wdf ≠ 0)
    (hwt : 0 < specDLHwt s.collection_size s.collection_freq s.average_length wdf len) :
    (pre.init s factor).get_sumpart wdf len u =
      ((s.wqf : ℝ) * factor) *
        specDLHwt s.collection_size s.collection_freq s.average_length wdf len /
        ((wdf : ℝ) + 0.5) := by
  have harg : (wdf : ℝ) / (len : ℝ) *
      (s.average_length * (s.collection_size : ℝ) / (s.collection_freq : ℝ)) =
      (wdf : ℝ) / (len : ℝ) * ((s.collection_size : ℝ) / (s.collection_freq : ℝ)) *
        s.average_length := by ring
  simp only [DLHWeight.init, if_neg hU, DLHWeight.get_sumpart, if_neg hw]
  rw [harg]
  unfold specDLHwt at hwt ⊢
  rw [if_neg (not_le.mpr hwt)]

/-- Witness for C4 at the spec's end-to-end scenario
(N = 1000, F = 50, average length 20, wdf = 4, len = 15). -/
theorem dlh_sumpart_closed_form_witness :
    0 < specDLHwt 1000 50 20 4 15 ∧
    (DLHWeight.new.init ⟨1000, 50, 20, 1, 10, 100⟩ 1).get_sumpart 4 15 7 =
      (((1:ℕ) : ℝ) * 1) * specDLHwt 1000 50 20 4 15 / ((4 : ℝ) + 0.5) := by
  have hb : (1:ℝ) < 2 := one_lt_two
  have l64 : logb 2 (64 : ℝ) = 6 := by
    rw [show (64:ℝ) = 2 ^ (6:ℕ) by norm_num, Real.logb_pow, Real.logb_self_eq_one hb]
    norm_num
  have l16 : logb 2 (16 : ℝ) = 4 := by
    rw [show (16:ℝ) = 2 ^ (4:ℕ) by norm_num, Real.logb_pow, Real.logb_self_eq_one hb]
    norm_num
  have lhalf : logb 2 ((1:ℝ)/2) = -1 := by
    rw [show (1:ℝ)/2 = (2:ℝ)⁻¹ by norm_num, Real.logb_inv, Real.logb_self_eq_one hb]
  have h1 : (6:ℝ) ≤ logb 2 ((4 : ℝ) / 15 * (1000 / 50) * 20) := by
    rw [← l64]
    exact Real.logb_le_logb_of_le hb (by norm_num) (by norm_num)
  have h2 : (-1 : ℝ) ≤ logb 2 (1 - (4 : ℝ) / 15) := by
    rw [← lhalf]
    exact Real.logb_le_logb_of_le hb (by norm_num) (by norm_num)
  have h3 : (4:ℝ) ≤ logb 2 (2 * π * 4 * (1 - (4 : ℝ) / 15)) := by
    refine le_trans (le_of_eq l16.symm) ?_
    refine Real.logb_le_logb_of_le hb (by norm_num) ?_
    nlinarith [Real.pi_gt_three]
  have hpos : 0 < specDLHwt 1000 50 20 4 15 := by
    unfold specDLHwt
    push_cast
    nlinarith [h1, h2, h3]
  refine ⟨hpos, ?_⟩
  exact dlh_sumpart_closed_form DLHWeight.new ⟨1000, 50, 20, 1, 10, 100⟩ 1
    (by decide) 4 15 7 (by decide) hpos

end Xapian

end
